import Mathlib

/-!
Verification development for the retrieval core of the IronwillHackrx
question-answering service (chunker, embedder, similarity ranking,
per-question orchestration).

Python strings are modelled as `List Char` (`Str`), ASCII-focused: the
`\w` word class is modelled as alphanumeric-or-underscore and `\s` as the
common ASCII whitespace characters.  Floating point arithmetic is
abstracted to `ℝ`.  Python exceptions are modelled with `Except`; a
Python function whose exceptions are all caught internally is modelled as
a total function.
-/

instance {ε α : Type} [DecidableEq ε] [DecidableEq α] : DecidableEq (Except ε α) :=
  fun x y =>
    match x, y with
    | .ok a, .ok b =>
      if h : a = b then isTrue (by rw [h]) else isFalse (by simpa using h)
    | .error a, .error b =>
      if h : a = b then isTrue (by rw [h]) else isFalse (by simpa using h)
    | .ok _, .error _ => isFalse (by simp)
    | .error _, .ok _ => isFalse (by simp)

namespace HackRx

/-- A Python string, modelled as a list of characters. -/
abbrev Str := List Char

/-- Convenience conversion from a Lean string literal. -/
def str (s : String) : Str := s.data

/-- Python's `\s` class (ASCII part): the whitespace characters recognised by
`re.sub(r'\s+', ...)`, `str.split()` and `str.strip()`. -/
def isWS (c : Char) : Bool :=
  c = ' ' || c = '\t' || c = '\n' || c = '\r' || c = '\x0b' || c = '\x0c'

/-- Python's `\w` class (ASCII part): alphanumerics and underscore. -/
def isWordChar (c : Char) : Bool := c.isAlphanum || c = '_'

/-- The sentence-terminating punctuation of `split_into_sentences`
(the `[.!?]` lookbehind class). -/
def isSentencePunct (c : Char) : Bool := c = '.' || c = '!' || c = '?'

/-- The character class kept by `clean_text`'s second substitution:
`[\w\s\.\,\!\?\;\:\-\(\)\[\]\x7b\x7d]`. -/
def isAllowed (c : Char) : Bool :=
  isWordChar c || isWS c ||
  c = '.' || c = ',' || c = '!' || c = '?' || c = ';' || c = ':' || c = '-' ||
  c = '(' || c = ')' || c = '[' || c = ']' || c = '\x7b' || c = '\x7d'

/-- Python `chunker.clean_text`, step 1: `re.sub(r'\s+', ' ', text)`.  The flag
records whether we are inside a whitespace run that has already emitted
its single replacement space. -/
def collapseGo (skip : Bool) : Str → Str
  | [] => []
  | c :: rest =>
    if isWS c then
      if skip then collapseGo true rest else ' ' :: collapseGo true rest
    else c :: collapseGo false rest

/-- Python `re.sub(r'\s+', ' ', text)`: every maximal whitespace run becomes one space. -/
def collapseWS (t : Str) : Str := collapseGo false t

/-- Python `chunker.clean_text`, step 2: each character outside the allowed class is
replaced by a single space. -/
def replaceBad (t : Str) : Str := t.map (fun c => if isAllowed c then c else ' ')

/-- Python `str.strip()`: remove leading and trailing whitespace. -/
def trimL (t : Str) : Str := ((t.dropWhile isWS).reverse.dropWhile isWS).reverse

/-- Python `chunker.clean_text`: collapse whitespace, replace disallowed characters
by spaces, then strip. -/
def cleanText (t : Str) : Str := trimL (replaceBad (collapseWS t))

/-- The raw pieces of `re.split(r'(?<=[.!?])\s+', text)`.  State: `skip` is
true while consuming the matched whitespace run, `prevPunct` records whether
the previously consumed character is in `[.!?]` (the lookbehind), `acc` is
the current piece, reversed. -/
def sentGo (skip : Bool) (prevPunct : Bool) (acc : Str) : Str → List Str
  | [] => [acc.reverse]
  | c :: rest =>
    if skip then
      if isWS c then sentGo true false [] rest
      else sentGo false (isSentencePunct c) [c] rest
    else if prevPunct && isWS c then acc.reverse :: sentGo true false [] rest
    else sentGo false (isSentencePunct c) (c :: acc) rest

/-- The list returned by `re.split(r'(?<=[.!?])\s+', text)`. -/
def sentPieces (t : Str) : List Str := sentGo false false [] t

/-- Python `chunker.split_into_sentences`: split on whitespace runs that follow
sentence punctuation, then `[s.strip() for s in sentences if s.strip()]`. -/
def splitIntoSentences (t : Str) : List Str :=
  ((sentPieces t).map trimL).filter (fun s => s ≠ [])

/-- Python `str.split()` (no separator): maximal non-whitespace runs.
State: `inW` is true when `acc` holds the reversed current word. -/
def wordsGo (inW : Bool) (acc : Str) : Str → List Str
  | [] => if inW then [acc.reverse] else []
  | c :: rest =>
    if isWS c then
      if inW then acc.reverse :: wordsGo false [] rest else wordsGo false [] rest
    else wordsGo true (c :: acc) rest

/-- Python `text.split()`. -/
def splitWords (t : Str) : List Str := wordsGo false [] t

/-- Python `" ".join(parts)`. -/
def joinSpace : List Str → Str
  | [] => []
  | [s] => s
  | s :: rest => s ++ ' ' :: joinSpace rest

/-- Python `len(sentence.split())`: the word count used by `chunk_by_sentences`. -/
def wordCount (s : Str) : ℕ := (splitWords s).length

/-- Python `sum(len(s.split()) for s in current_chunk)`: the running size of the
current chunk. -/
def sizeL (l : List Str) : ℕ := (l.map wordCount).sum

/-- Python `l[-n:]` for a list known to have at least `n` elements (and, for
shorter lists, the whole list — which is also what `l[-n:]` returns). -/
def takeLast (n : ℕ) (l : List α) : List α := l.drop (l.length - n)

/-- Python `current_chunk[-2:] if len(current_chunk) >= 2 else current_chunk` from
`chunk_by_sentences`. -/
def ovl (cur : List Str) : List Str :=
  if 2 ≤ cur.length then takeLast 2 cur else cur

/-- The loop of `chunk_by_sentences`.  `chunks` and `current` are the lists of
sentences of the saved chunks and of the current chunk (the Python code stores
the saved chunks already joined; we join at the end, see `chunkBySentences`).
A chunk is saved only when its joined text strips to something non-empty,
exactly as `if chunk_text.strip(): chunks.append(chunk_text)` — when
`current` is empty the joined text is empty, so the separate Python guard
`if current_chunk:` before the final save is subsumed. -/
def cbsAux (cs : ℕ) (chunks : List (List Str)) (current : List Str) :
    List Str → List (List Str)
  | [] => if trimL (joinSpace current) = [] then chunks else chunks ++ [current]
  | s :: rest =>
    if sizeL current + wordCount s > cs ∧ current ≠ [] then
      cbsAux cs
        (if trimL (joinSpace current) = [] then chunks else chunks ++ [current])
        (ovl current ++ [s]) rest
    else cbsAux cs chunks (current ++ [s]) rest

/-- Python `chunk_by_sentences(sentences, chunk_size, overlap)`.  Note the Python
body never reads `overlap`: the overlap is hard-coded to the last up-to-2
sentences of the closed chunk. -/
def chunkBySentences (sentences : List Str) (cs ov : ℕ) : List Str :=
  (cbsAux cs [] [] sentences).map joinSpace

/-- The start offsets of Python `range(0, n, step)` for a positive `step`,
generated with explicit fuel so that the definition is structural (the fuel
`n` suffices because each step advances by `step ≥ 1`). -/
def startsFuel (n step : ℕ) : ℕ → ℕ → List ℕ
  | 0, _ => []
  | fuel + 1, a => if a < n then a :: startsFuel n step fuel (a + step) else []

/-- Python `range(0, n, step)` for `step ≥ 1`. -/
def rangeStep (n step : ℕ) : List ℕ := startsFuel n step n 0

/-- Python `chunk_by_words(text, chunk_size, overlap)`.  The Python loop iterates
`range(0, len(words), chunk_size - overlap)`: a zero step raises
`ValueError` (modelled as `Except.error`), a negative step yields an empty
range and hence no chunks, and a positive step slides the window. -/
def chunkByWords (t : Str) (cs ov : ℕ) : Except Str (List Str) :=
  let ws := splitWords t
  if cs = ov then Except.error (str "range() arg 3 must not be zero")
  else if cs < ov then Except.ok []
  else Except.ok
    (((rangeStep ws.length (cs - ov)).map
        (fun i => joinSpace ((ws.drop i).take cs))).filter
      (fun ch => trimL ch ≠ []))

/-- Python `chunk_text(text, chunk_size, overlap)`: empty/blank text yields `[]`;
otherwise clean, split into sentences, and use word-based chunking when at
most one sentence is found, sentence-based chunking otherwise. -/
def chunkText (t : Str) (cs ov : ℕ) : Except Str (List Str) :=
  if trimL t = [] then Except.ok []
  else
    let c := cleanText t
    let ss := splitIntoSentences c
    if ss.length ≤ 1 then chunkByWords c cs ov
    else Except.ok (chunkBySentences ss cs ov)

/-- Python `validate_chunks`: keep a chunk iff it is non-empty and its stripped
length is strictly greater than 10. -/
def validateChunks : List Str → List Str
  | [] => []
  | c :: rest =>
    if c ≠ [] ∧ 10 < (trimL c).length then c :: validateChunks rest
    else validateChunks rest

/-- Whether a modelled Python call raised an exception. -/
def isErr {ε α : Type} : Except ε α → Bool
  | Except.error _ => true
  | Except.ok _ => false

/-- The contiguous sub-sequence `items[a:b]` described by an interval. -/
def slice (items : List α) (iv : ℕ × ℕ) : List α :=
  (items.drop iv.1).take (iv.2 - iv.1)

/-- Predicate `chainFrom n p l`: starting from interval `p`, the intervals of `l`
each start no later than the previous interval ends and end no earlier,
every interval is non-empty, and the last interval ends at `n`. -/
def chainFrom (n : ℕ) : ℕ × ℕ → List (ℕ × ℕ) → Prop
  | p, [] => p.2 = n ∧ p.1 < p.2
  | p, q :: rest => p.1 < p.2 ∧ q.1 ≤ p.2 ∧ p.2 ≤ q.2 ∧ chainFrom n q rest

/-- The intervals cover `[0, n)` without gaps: the first starts at 0, each
subsequent interval starts inside (or at the end of) the previous one and
extends it, and the last ends at `n`. -/
def chainCovers (n : ℕ) : List (ℕ × ℕ) → Prop
  | [] => False
  | p :: rest => p.1 = 0 ∧ chainFrom n p rest

/-- Concatenate the slices named by the intervals after removing from each
one the part that repeats already-emitted items (everything before the
previous interval's end `prev`). -/
def dedupConcat (items : List α) : ℕ → List (ℕ × ℕ) → List α
  | _, [] => []
  | prev, q :: rest =>
    (items.drop (max q.1 prev)).take (q.2 - max q.1 prev) ++
      dedupConcat items q.2 rest

/-- The item sequence a `chunk_text` call chunks over: the words of the
cleaned text on the word-based path, its sentences on the sentence-based
path. -/
def chunkItems (t : Str) : List Str :=
  if (splitIntoSentences (cleanText t)).length ≤ 1 then splitWords (cleanText t)
  else splitIntoSentences (cleanText t)

/-! ### Embedder (`utils/embedder.py`) -/

/-- An embedding: either a dense numeric vector (sentence-transformer output,
floats abstracted to `ℝ`) or a sparse token-frequency map (`Counter`,
modelled as an association list in first-occurrence order). -/
inductive Emb where
  | dense : List ℝ → Emb
  | sparse : List (Str × ℕ) → Emb

/-- Python `np.dot` on same-length vectors. -/
noncomputable def dotR (a b : List ℝ) : ℝ := (List.zipWith (· * ·) a b).sum

/-- Python `np.linalg.norm`: the Euclidean norm. -/
noncomputable def normR (a : List ℝ) : ℝ :=
  Real.sqrt ((a.map (fun x => x * x)).sum)

/-- The distinct keys of a frequency map, as with Python `set(d.keys())`. -/
def keysOf (m : List (Str × ℕ)) : List Str := (m.map Prod.fst).dedup

/-- Python `embedder.cosine_similarity`.  Two dicts: Jaccard overlap of key sets,
0 when the union is empty.  Two numeric vectors: cosine, 0 when the product
of the norms is not positive; `np.dot` on vectors of different lengths
raises, which the function's `except` turns into `0.0`.  Mixed kinds also
raise inside `try` and yield `0.0`. -/
noncomputable def cosineSim : Emb → Emb → ℝ
  | Emb.sparse a, Emb.sparse b =>
    let ka := keysOf a
    let kb := keysOf b
    let inter := (ka.filter (fun k => k ∈ kb)).length
    let uni := ((ka ++ kb).dedup).length
    if 0 < uni then (inter : ℝ) / (uni : ℝ) else 0
  | Emb.dense a, Emb.dense b =>
    if a.length = b.length then
      if 0 < normR a * normR b then dotR a b / (normR a * normR b) else 0
    else 0
  | _, _ => 0

/-- Python `text.lower()` (ASCII). -/
def lowerStr (t : Str) : Str := t.map Char.toLower

/-- Python `re.findall(r'\b\w+\b', s)`: the maximal runs of word characters. -/
def tokGo (inW : Bool) (acc : Str) : Str → List Str
  | [] => if inW then [acc.reverse] else []
  | c :: rest =>
    if isWordChar c then tokGo true (c :: acc) rest
    else if inW then acc.reverse :: tokGo false [] rest
    else tokGo false [] rest

/-- The token list of `simple_embed`: word-character runs of the lowercased
text. -/
def tokenize (t : Str) : List Str := tokGo false [] (lowerStr t)

/-- One step of building a `Counter`: bump the count of `w`, appending it
with count 1 on first occurrence. -/
def bump : List (Str × ℕ) → Str → List (Str × ℕ)
  | [], w => [(w, 1)]
  | (k, n) :: rest, w =>
    if k = w then (k, n + 1) :: rest else (k, n) :: bump rest w

/-- Python `embedder.simple_embed`: the word-frequency `Counter` of the lowercased
text. -/
def simpleEmbed (t : Str) : List (Str × ℕ) := (tokenize t).foldl bump []

/-- The text preprocessing of `embed_text` before the dense model call:
`re.sub(r'\s+', ' ', text.strip())`, truncated to 512 characters. -/
def prepText (t : Str) : Str := (collapseWS (trimL t)).take 512

/-- The ambient state `embed_text` depends on: whether the sentence
transformer loaded (`get_model()` returning a model vs `None`), and what
a call to `model.encode` returns — `some v` for a successful encoding,
`none` when the call raises. -/
structure EmbedEnv where
  modelLoaded : Bool
  encodeRes : Str → Option (List ℝ)

/-- Python `embedder.embed_text`: if the model is available and encoding succeeds
the dense vector is returned; a failed load or a raised exception falls back
to `simple_embed`.  Every exception path is caught inside the Python
function, so the model is a total function. -/
def embedText (env : EmbedEnv) (t : Str) : Emb :=
  if env.modelLoaded then
    match env.encodeRes (prepText t) with
    | some v => Emb.dense v
    | none => Emb.sparse (simpleEmbed t)
  else Emb.sparse (simpleEmbed t)

/-- Python `embedder.embed_chunks`: one embedding per chunk, in order.  The Python
loop's `except` branch (appending a zero embedding) is unreachable because
`embed_text` catches all of its exceptions, so the loop is a `map`. -/
def embedChunks (env : EmbedEnv) (chunks : List Str) : List Emb :=
  chunks.map (embedText env)

/-- A neutral embedding in the sense of the specification: an all-zero dense
vector or an empty frequency map. -/
def isNeutral : Emb → Prop
  | Emb.dense v => ∀ x ∈ v, x = 0
  | Emb.sparse m => m = []

/-- A concrete environment in which the dense model failed to load. -/
def envNoModel : EmbedEnv := ⟨false, fun _ => none⟩

/-- A concrete environment in which the dense model is loaded but every
`encode` call raises. -/
def envEncodeFails : EmbedEnv := ⟨true, fun _ => none⟩

/-! ### Similarity ranking (`utils/faiss_index.py`) -/

/-- The order in which `similarities.sort(reverse=True)` arranges the
`(score, position)` pairs: descending lexicographic comparison (Python
compares tuples lexicographically). -/
def rankRel (a b : ℝ × ℕ) : Prop := b.1 < a.1 ∨ (a.1 = b.1 ∧ b.2 ≤ a.2)

noncomputable instance : DecidableRel rankRel := fun a b =>
  inferInstanceAs (Decidable (b.1 < a.1 ∨ (a.1 = b.1 ∧ b.2 ≤ a.2)))

instance : IsTotal (ℝ × ℕ) rankRel :=
  ⟨by
    intro a b
    rcases lt_trichotomy a.1 b.1 with h | h | h
    · exact Or.inr (Or.inl h)
    · rcases Nat.le_total b.2 a.2 with h2 | h2
      · exact Or.inl (Or.inr ⟨h, h2⟩)
      · exact Or.inr (Or.inr ⟨h.symm, h2⟩)
    · exact Or.inl (Or.inl h)⟩

instance : IsTrans (ℝ × ℕ) rankRel :=
  ⟨by
    intro a b c hab hbc
    rcases hab with h1 | ⟨h1, h1'⟩ <;> rcases hbc with h2 | ⟨h2, h2'⟩
    · exact Or.inl (h2.trans h1)
    · exact Or.inl (h2 ▸ h1)
    · exact Or.inl (h1 ▸ h2)
    · exact Or.inr ⟨h1.trans h2, h2'.trans h1'⟩⟩

/-- The default second argument used to model the in-range accesses
`index[i]` and `chunks[i]`. -/
def defaultEmb : Emb := Emb.sparse []

/-- The `(similarity, i)` list built by the loop of
`retrieve_top_k_chunks` over `enumerate(index)`.  The inner `except`
(scoring failure ⇒ `(0.0, i)`) is unreachable because `cosineSim` is
total. -/
noncomputable def simList (q : Emb) (index : List Emb) : List (ℝ × ℕ) :=
  (List.range index.length).map (fun i => (cosineSim q (index.getD i defaultEmb), i))

/-- Python `similarities.sort(reverse=True)`: the similarity list in descending
lexicographic order.  The positions are pairwise distinct, so the
descending order is unique and insertion sort computes exactly the list
Python's stable sort produces. -/
noncomputable def sortedSims (index : List Emb) (q : Emb) : List (ℝ × ℕ) :=
  List.insertionSort rankRel (simList q index)

/-- Python `top_indices = [i for _, i in similarities[:k]]`. -/
noncomputable def topIndices (index : List Emb) (q : Emb) (k : ℕ) : List ℕ :=
  ((sortedSims index q).take k).map Prod.snd

/-- Python `retrieve_top_k_chunks(index, query_embedding, chunks, k)`: the chunks at
the top-k positions; if some selected position is out of range for `chunks`
the Python indexing raises and the outer `except` falls back to
`chunks[:k]`. -/
noncomputable def retrieveTopK (index : List Emb) (q : Emb) (chunks : List Str)
    (k : ℕ) : List Str :=
  if ∀ i ∈ topIndices index q k, i < chunks.length then
    (topIndices index q k).map (fun i => chunks.getD i [])
  else chunks.take k

/-- A concrete sparse embedding used for tie-breaking witnesses. -/
def tieEmb : Emb := Emb.sparse [(str "a", 1)]

/-- A concrete two-element index whose chunks tie on similarity. -/
def tieIndex : List Emb := [tieEmb, tieEmb]

/-! ### Per-question orchestration (`main.py`, `hackrx_run`) -/

/-- The error placeholder `hackrx_run` records for a failed question. -/
def placeholderMsg (e : Str) : Str :=
  str "I apologize, but I encountered an error while processing this question: " ++ e

/-- The `try`/`except` around one question: the answer on success, the
placeholder on failure. -/
def settleAnswer : Except Str Str → Str
  | Except.ok a => a
  | Except.error e => placeholderMsg e

/-- The body of the per-question `try`: embed the question, retrieve the top
chunks, join them into the context, generate the answer.  The three
collaborators are passed as fallible oracles; an exception anywhere in the
body short-circuits to the `except` handler. -/
def processQuestion (embedQ : Str → Except Str Emb)
    (retr : Emb → Except Str (List Str)) (gen : Str → Str → Except Str Str)
    (q : Str) : Except Str Str :=
  match embedQ q with
  | Except.error e => Except.error e
  | Except.ok qe =>
    match retr qe with
    | Except.error e => Except.error e
    | Except.ok tc => gen q (joinSpace tc)

/-- The `for i, question in enumerate(req.questions)` loop of `hackrx_run`:
each question appends exactly one answer, a failure appending the
placeholder and the loop continuing. -/
def answersLoop (pq : Str → Except Str Str) : List Str → List Str
  | [] => []
  | q :: rest => settleAnswer (pq q) :: answersLoop pq rest

/-- The answers `hackrx_run` accumulates for a question list. -/
def hackrxAnswers (embedQ : Str → Except Str Emb)
    (retr : Emb → Except Str (List Str)) (gen : Str → Str → Except Str Str)
    (qs : List Str) : List Str :=
  answersLoop (processQuestion embedQ retr gen) qs

/-- A concrete question-embedding oracle that fails on the question "bad". -/
def embedQOracle : Str → Except Str Emb := fun q =>
  if q = str "bad" then Except.error (str "boom") else Except.ok defaultEmb

/-- A concrete retrieval oracle that always succeeds. -/
def retrOracle : Emb → Except Str (List Str) := fun _ => Except.ok []

/-- A concrete answer-generation oracle that always succeeds. -/
def genOracle : Str → Str → Except Str Str := fun _ _ => Except.ok (str "ans")

/-! ## Theorems -/

/-- C10: on the sentence-based path (two or more sentences after cleaning),
the output of `chunk_text` does not depend on the `overlap` argument,
because `chunk_by_sentences` never reads it. -/
theorem chunkText_overlap_independent (t : Str) (cs ov₁ ov₂ : ℕ)
    (h : 1 < (splitIntoSentences (cleanText t)).length) :
    chunkText t cs ov₁ = chunkText t cs ov₂ := by
  have h1 : ¬ ((splitIntoSentences (cleanText t)).length ≤ 1) := by omega
  by_cases h0 : trimL t = []
  · simp [chunkText, h0]
  · simp [chunkText, h0, h1, chunkBySentences]

/-- Witness for C10 at the two-sentence text "Hi there. Bye now.". -/
theorem chunkText_overlap_independent_witness :
    1 < (splitIntoSentences (cleanText (str "Hi there. Bye now."))).length ∧
    chunkText (str "Hi there. Bye now.") 6 2 =
      chunkText (str "Hi there. Bye now.") 6 99 :=
  ⟨by decide, chunkText_overlap_independent (str "Hi there. Bye now.") 6 2 99 (by decide)⟩

/-- C2: evaluation at the failing input.  With `chunk_size = 5` and
`overlap = 0`, chunking "a b c. d e f. g h i." produces the chunk
"a b c. d e f.", which has 6 > 5 words and consists of two sentences of 3
words each — so it is not a lone oversized sentence, contradicting the
claimed size bound. -/
theorem chunkText_size_bound_violation :
    chunkText (str "a b c. d e f. g h i.") 5 0 =
      Except.ok [str "a b c.", str "a b c. d e f.", str "a b c. d e f. g h i."] ∧
    wordCount (str "a b c. d e f.") = 6 ∧
    (splitIntoSentences (str "a b c. d e f.")).length = 2 ∧
    wordCount (str "a b c.") ≤ 5 ∧ wordCount (str "d e f.") ≤ 5 := by
  refine ⟨by decide, by decide, by decide, by decide, by decide⟩

/-- C5 counterexample: with `chunk_size = 3 < 5 = overlap` (a structurally
invalid configuration) on the one-sentence text "hello", `chunk_text` does
not raise: the word-path `range(0, 1, -2)` is simply empty and the call
returns `[]`. -/
theorem chunkText_invalid_config_no_raise :
    (3 : ℕ) < 5 ∧ chunkText (str "hello") 3 5 = Except.ok [] := by
  refine ⟨by decide, by decide⟩

/-- C5 (amended): `chunk_text` raises exactly when the word-based path is
taken (non-blank text with at most one sentence after cleaning) and
`chunk_size = overlap` (zero `range` step); with `chunk_size < overlap`, or
on the sentence-based path, it returns normally. -/
theorem chunkText_error_iff (t : Str) (cs ov : ℕ) :
    isErr (chunkText t cs ov) = true ↔
      cs = ov ∧ trimL t ≠ [] ∧
        (splitIntoSentences (cleanText t)).length ≤ 1 := by
  by_cases h0 : trimL t = []
  · simp [chunkText, h0, isErr]
  · by_cases h1 : (splitIntoSentences (cleanText t)).length ≤ 1
    · by_cases h2 : cs = ov
      · simp [chunkText, h0, h1, h2, chunkByWords, isErr]
      · rcases Nat.lt_or_ge cs ov with h3 | h3
        · simp [chunkText, h0, h1, h2, chunkByWords, h3, isErr]
        · have h4 : ¬ cs < ov := by omega
          simp [chunkText, h0, h1, h2, chunkByWords, h4, isErr]
    · simp [chunkText, h0, h1, isErr]

/-- C6 counterexample: a chunk of exactly 10 non-blank characters has
trimmed length 10 — not below the threshold 10 — yet `validate_chunks`
drops it, because the code keeps only chunks with trimmed length
strictly greater than 10. -/
theorem validateChunks_drops_length_ten :
    validateChunks [str "abcdefghij"] = [] ∧
    (trimL (str "abcdefghij")).length = 10 := by
  refine ⟨by decide, by decide⟩

/-- C6 (amended): `validate_chunks` keeps exactly the chunks whose trimmed
length is strictly greater than 10 (equivalently, drops a chunk iff its
trimmed length is at most 10), preserving order; the separate non-emptiness
test in the code is subsumed because an empty chunk trims to length 0. -/
theorem validateChunks_eq_filter (chunks : List Str) :
    validateChunks chunks = chunks.filter (fun c => 10 < (trimL c).length) := by
  induction chunks with
  | nil => rfl
  | cons c rest ih =>
    by_cases h : 10 < (trimL c).length
    · have hc : c ≠ [] := by
        intro hnil
        rw [hnil] at h
        simp [trimL] at h
      simp [validateChunks, List.filter_cons, h, hc, ih]
    · have hcond : ¬ (c ≠ [] ∧ 10 < (trimL c).length) := by
        intro hand
        exact h hand.2
      simp [validateChunks, List.filter_cons, h, hcond, ih]

/-- The answers loop is a pointwise map of the settled per-question result. -/
theorem answersLoop_eq_map (pq : Str → Except Str Str) (qs : List Str) :
    answersLoop pq qs = qs.map (fun q => settleAnswer (pq q)) := by
  induction qs with
  | nil => rfl
  | cons q rest ih => simp [answersLoop, ih]

/-- Reading `getD` through a `map`, for an in-range index. -/
theorem getD_map_lt (f : α → β) (a : α) (b : β) :
    ∀ (l : List α) (i : ℕ), i < l.length → (l.map f).getD i b = f (l.getD i a) := by
  intro l
  induction l with
  | nil => intro i hi; simp at hi
  | cons x rest ih =>
    intro i hi
    cases i with
    | zero => simp
    | succ j =>
      simp only [List.map_cons, List.getD_cons_succ]
      exact ih j (by simpa using hi)

/-- C8: per-question isolation in `hackrx_run`.  The answers list has one
entry per question, in order, and the entry for question `i` is exactly the
settled result of processing question `i` alone — an exception while
embedding, retrieving or generating for one question yields the descriptive
placeholder in that slot and leaves every other slot untouched. -/
theorem hackrx_per_question_isolation (embedQ : Str → Except Str Emb)
    (retr : Emb → Except Str (List Str)) (gen : Str → Str → Except Str Str)
    (qs : List Str) :
    (hackrxAnswers embedQ retr gen qs).length = qs.length ∧
    ∀ i : ℕ, i < qs.length →
      (hackrxAnswers embedQ retr gen qs).getD i [] =
        settleAnswer (processQuestion embedQ retr gen (qs.getD i [])) := by
  constructor
  · rw [hackrxAnswers, answersLoop_eq_map, List.length_map]
  · intro i hi
    rw [hackrxAnswers, answersLoop_eq_map]
    exact getD_map_lt _ [] _ qs i hi

/-- Witness for C8: with an embedding oracle failing on the first question
"bad" and succeeding on the second, both slots are the settled per-question
results (placeholder, then answer). -/
theorem hackrx_per_question_isolation_witness :
    (0 : ℕ) < 2 ∧ (1 : ℕ) < 2 ∧
    (hackrxAnswers embedQOracle retrOracle genOracle [str "bad", str "good"]).getD 0 [] =
      settleAnswer (processQuestion embedQOracle retrOracle genOracle
        ([str "bad", str "good"].getD 0 [])) ∧
    (hackrxAnswers embedQOracle retrOracle genOracle [str "bad", str "good"]).getD 1 [] =
      settleAnswer (processQuestion embedQOracle retrOracle genOracle
        ([str "bad", str "good"].getD 1 [])) :=
  ⟨by decide, by decide,
    (hackrx_per_question_isolation embedQOracle retrOracle genOracle
      [str "bad", str "good"]).2 0 (by decide),
    (hackrx_per_question_isolation embedQOracle retrOracle genOracle
      [str "bad", str "good"]).2 1 (by decide)⟩

/-- C7 counterexample: with the model loaded but `encode` raising on every
call, the chunk "hi" receives the sparse word-frequency fallback
`{"hi": 1}`, which is neither a zero vector nor an empty map — not the
neutral embedding the claim prescribes for a failed chunk. -/
theorem embedChunks_failure_not_neutral :
    embedChunks envEncodeFails [str "hi"] = [Emb.sparse (simpleEmbed (str "hi"))] ∧
    simpleEmbed (str "hi") = [(str "hi", 1)] ∧
    ¬ isNeutral (Emb.sparse (simpleEmbed (str "hi"))) := by
  refine ⟨rfl, by decide, ?_⟩
  have h : simpleEmbed (str "hi") = [(str "hi", 1)] := by decide
  rw [isNeutral, h]
  simp

/-- C7 (amended): `embed_chunks` returns one embedding per chunk in input
order and never raises; when the dense model is unavailable every chunk
receives the sparse word-frequency embedding; and when encoding an
individual chunk fails, that chunk receives the sparse word-frequency
fallback (not a neutral zero embedding — the zero-embedding branch in
`embed_chunks` is unreachable because `embed_text` catches every failure)
while the rest of the batch continues unaffected. -/
theorem embedChunks_spec (env : EmbedEnv) (chunks : List Str) :
    (embedChunks env chunks).length = chunks.length ∧
    embedChunks env chunks = chunks.map (embedText env) ∧
    (env.modelLoaded = false →
      embedChunks env chunks = chunks.map (fun c => Emb.sparse (simpleEmbed c))) ∧
    (∀ c : Str, env.encodeRes (prepText c) = none →
      embedText env c = Emb.sparse (simpleEmbed c)) := by
  refine ⟨List.length_map _ _, rfl, ?_, ?_⟩
  · intro hml
    apply List.map_congr_left
    intro c _
    simp [embedText, hml]
  · intro c hc
    by_cases hml : env.modelLoaded
    · simp [embedText, hml, hc]
    · simp [embedText, hml]

/-- Witness for C7 at a model-unavailable environment and a failing-encode
environment. -/
theorem embedChunks_spec_witness :
    embedChunks envNoModel [str "hi"] =
      [str "hi"].map (fun c => Emb.sparse (simpleEmbed c)) ∧
    embedText envEncodeFails (str "hi") = Emb.sparse (simpleEmbed (str "hi")) :=
  ⟨(embedChunks_spec envNoModel [str "hi"]).2.2.1 rfl,
    (embedChunks_spec envEncodeFails [str "hi"]).2.2.2 (str "hi") rfl⟩

/-- C9: the similarity of two dense vectors of equal dimension is
`dot / (‖a‖ ⬝ ‖b‖)` whenever both norms are non-zero and `0` whenever either
norm is zero, so the division branch is guarded and the function is total:
the code's condition `norm1 * norm2 > 0` is equivalent to both norms being
non-zero because norms are non-negative. -/
theorem cosineSim_dense_spec (a b : List ℝ) (hlen : a.length = b.length) :
    (normR a ≠ 0 → normR b ≠ 0 →
      cosineSim (Emb.dense a) (Emb.dense b) = dotR a b / (normR a * normR b)) ∧
    ((normR a = 0 ∨ normR b = 0) → cosineSim (Emb.dense a) (Emb.dense b) = 0) := by
  have hna : 0 ≤ normR a := Real.sqrt_nonneg _
  have hnb : 0 ≤ normR b := Real.sqrt_nonneg _
  constructor
  · intro ha hb
    have hpos : 0 < normR a * normR b :=
      mul_pos (lt_of_le_of_ne hna (Ne.symm ha)) (lt_of_le_of_ne hnb (Ne.symm hb))
    rw [cosineSim, if_pos hlen, if_pos hpos]
  · intro h
    have hz : normR a * normR b = 0 := by
      rcases h with h | h <;> rw [h] <;> ring
    rw [cosineSim, if_pos hlen, if_neg (by rw [hz]; exact lt_irrefl 0)]

/-- Witness for C9 at the pair `[1]`, `[0]`: the second vector has norm 0,
so the similarity is 0 and no division happens. -/
theorem cosineSim_dense_spec_witness :
    cosineSim (Emb.dense [(1 : ℝ)]) (Emb.dense [(0 : ℝ)]) = 0 :=
  (cosineSim_dense_spec [(1 : ℝ)] [(0 : ℝ)] rfl).2
    (Or.inr (by simp [normR]))

/-- In a list sorted by `r`, an element `x` with `¬ r y x` appears strictly
before `y`. -/
theorem sorted_pair_sublist {α : Type} {r : α → α → Prop} :
    ∀ {l : List α}, l.Sorted r → ∀ {x y : α}, x ∈ l → y ∈ l → x ≠ y →
      ¬ r y x → List.Sublist [x, y] l := by
  intro l
  induction l with
  | nil => intro _ x y hx; simp at hx
  | cons a t ih =>
    intro hs x y hx hy hne hnr
    rw [List.sorted_cons] at hs
    rcases List.mem_cons.1 hx with rfl | hxt
    · have hyt : y ∈ t := by
        rcases List.mem_cons.1 hy with rfl | hyt
        · exact absurd rfl hne
        · exact hyt
      exact List.Sublist.cons₂ x (List.singleton_sublist.mpr hyt)
    · rcases List.mem_cons.1 hy with rfl | hyt
      · exact absurd (hs.1 x hxt) hnr
      · exact List.Sublist.cons a (ih hs.2 hxt hyt hne hnr)

/-- The positions of the similarity list are exactly `range (len index)`. -/
theorem simList_map_snd (q : Emb) (index : List Emb) :
    (simList q index).map Prod.snd = List.range index.length := by
  rw [simList, List.map_map]
  exact List.map_id _

/-- C1 counterexample: on an index of two identical sparse embeddings the two
chunks tie, and the sorted similarity list places position 1 before
position 0, so `retrieve_top_k_chunks` returns the chunk at the *higher*
original index first — not the lower one as claimed. -/
theorem retrieve_tie_lower_first_false :
    sortedSims tieIndex tieEmb =
      [(cosineSim tieEmb tieEmb, 1), (cosineSim tieEmb tieEmb, 0)] ∧
    retrieveTopK tieIndex tieEmb [str "A", str "B"] 2 = [str "B", str "A"] := by
  have hsim : simList tieEmb tieIndex =
      [(cosineSim tieEmb tieEmb, 0), (cosineSim tieEmb tieEmb, 1)] := rfl
  have hno : ¬ rankRel (cosineSim tieEmb tieEmb, 0) (cosineSim tieEmb tieEmb, 1) := by
    rintro (h | ⟨-, h⟩)
    · exact lt_irrefl _ h
    · omega
  have hsort : sortedSims tieIndex tieEmb =
      [(cosineSim tieEmb tieEmb, 1), (cosineSim tieEmb tieEmb, 0)] := by
    rw [sortedSims, hsim]
    simp [List.insertionSort, List.orderedInsert, hno]
  have htop : topIndices tieIndex tieEmb 2 = [1, 0] := by
    rw [topIndices, hsort]
    rfl
  refine ⟨hsort, ?_⟩
  rw [retrieveTopK, htop, if_pos (by decide)]
  rfl

/-- C1 (amended): when two chunks have identical similarity score, the chunk
with the *higher* original index is ranked before the one with the lower
index: `sort(reverse=True)` on the `(score, position)` pairs compares the
positions descending on score ties, so the pair of the higher position
appears strictly earlier in the sorted list. -/
theorem sortedSims_tie_higher_index_first (index : List Emb) (q : Emb)
    (i j : ℕ) (hij : i < j) (hj : j < index.length)
    (heq : cosineSim q (index.getD i defaultEmb) =
      cosineSim q (index.getD j defaultEmb)) :
    List.Sublist
      [(cosineSim q (index.getD j defaultEmb), j),
        (cosineSim q (index.getD i defaultEmb), i)]
      (sortedSims index q) := by
  have hperm := List.perm_insertionSort rankRel (simList q index)
  have hmem : ∀ m : ℕ, m < index.length →
      (cosineSim q (index.getD m defaultEmb), m) ∈ sortedSims index q := by
    intro m hm
    exact hperm.mem_iff.mpr
      (List.mem_map.2 ⟨m, List.mem_range.2 hm, rfl⟩)
  have hsorted : (sortedSims index q).Sorted rankRel :=
    List.sorted_insertionSort rankRel _
  refine sorted_pair_sublist hsorted (hmem j hj) (hmem i (hij.trans hj)) ?_ ?_
  · intro hcontra
    have : j = i := congrArg Prod.snd hcontra
    omega
  · rintro (h | ⟨-, h⟩)
    · rw [heq] at h
      exact lt_irrefl _ h
    · omega

/-- Witness for C1 on the concrete tied two-chunk index. -/
theorem sortedSims_tie_higher_index_first_witness :
    (0 : ℕ) < 1 ∧ (1 : ℕ) < tieIndex.length ∧
    List.Sublist
      [(cosineSim tieEmb (tieIndex.getD 1 defaultEmb), 1),
        (cosineSim tieEmb (tieIndex.getD 0 defaultEmb), 0)]
      (sortedSims tieIndex tieEmb) :=
  ⟨by decide, by decide,
    sortedSims_tie_higher_index_first tieIndex tieEmb 0 1 (by decide) (by decide) rfl⟩

/-- C4: on matching index/chunk lengths, `retrieve_top_k_chunks` returns
exactly `min k (len chunks)` chunks, read off from a duplicate-free list of
in-range original positions, so every returned chunk is drawn from the input
chunk list. -/
theorem retrieveTopK_spec (index : List Emb) (q : Emb) (chunks : List Str)
    (k : ℕ) (h : chunks.length = index.length) :
    ∃ idx : List ℕ, idx.Nodup ∧ (∀ i ∈ idx, i < chunks.length) ∧
      idx.length = min k chunks.length ∧
      retrieveTopK index q chunks k = idx.map (fun i => chunks.getD i []) ∧
      ∀ c ∈ retrieveTopK index q chunks k, c ∈ chunks := by
  have hperm := List.perm_insertionSort rankRel (simList q index)
  have hsnd : List.Perm ((sortedSims index q).map Prod.snd)
      (List.range index.length) := by
    rw [← simList_map_snd q index]
    exact (hperm.map Prod.snd)
  have htop : topIndices index q k = ((sortedSims index q).map Prod.snd).take k := by
    rw [topIndices, List.map_take]
  have hnodup : (topIndices index q k).Nodup := by
    rw [htop]
    exact List.Nodup.sublist (List.take_sublist _ _)
      (hsnd.nodup_iff.mpr (List.nodup_range _))
  have hbound : ∀ i ∈ topIndices index q k, i < chunks.length := by
    intro i hi
    rw [htop] at hi
    have : i ∈ List.range index.length := hsnd.mem_iff.mp (List.mem_of_mem_take hi)
    rw [h]
    exact List.mem_range.mp this
  have hlen : (topIndices index q k).length = min k chunks.length := by
    rw [htop, List.length_take, List.length_map, sortedSims, hperm.length_eq]
    simp [simList, h]
  have hval : retrieveTopK index q chunks k =
      (topIndices index q k).map (fun i => chunks.getD i []) := by
    rw [retrieveTopK, if_pos hbound]
  refine ⟨topIndices index q k, hnodup, hbound, hlen, hval, ?_⟩
  intro c hc
  rw [hval] at hc
  obtain ⟨i, hi, rfl⟩ := List.mem_map.1 hc
  rw [List.getD_eq_getElem chunks [] (hbound i hi)]
  exact List.getElem_mem _

/-! ### Helper lemmas for the chunk-coverage claim -/

/-- A non-empty `dropWhile` result contains an element violating the
predicate (its head). -/
theorem exists_not_of_dropWhile_ne_nil (p : Char → Bool) :
    ∀ l : Str, l.dropWhile p ≠ [] → ∃ c ∈ l.dropWhile p, p c = false := by
  intro l
  induction l with
  | nil => intro h; simp at h
  | cons a t ih =>
    intro h
    by_cases hp : p a
    · rw [List.dropWhile_cons_of_pos hp] at h ⊢
      exact ih h
    · rw [List.dropWhile_cons_of_neg hp]
      exact ⟨a, List.mem_cons_self a t, by simpa using hp⟩

/-- Python `strip` yields the empty string exactly on all-whitespace input. -/
theorem trimL_eq_nil_iff (l : Str) :
    trimL l = [] ↔ ∀ c ∈ l, isWS c = true := by
  constructor
  · intro h c hc
    rw [trimL] at h
    have h1 : (l.dropWhile isWS).reverse.dropWhile isWS = [] := by
      simpa using h
    have h2 : ∀ c ∈ l.dropWhile isWS, isWS c = true := by
      intro c hc
      exact List.dropWhile_eq_nil_iff.mp h1 c (List.mem_reverse.mpr hc)
    have h3 : ∀ c ∈ l.takeWhile isWS, isWS c = true := fun c hc =>
      List.mem_takeWhile_imp hc
    rcases List.mem_append.1
        (by rw [List.takeWhile_append_dropWhile]; exact hc :
          c ∈ l.takeWhile isWS ++ l.dropWhile isWS) with h4 | h4
    · exact h3 c h4
    · exact h2 c h4
  · intro h
    rw [trimL, List.dropWhile_eq_nil_iff.mpr h]
    rfl

/-- A string with no non-whitespace character and a non-empty strip cannot
coexist. -/
theorem trimL_ne_nil_iff (l : Str) :
    trimL l ≠ [] ↔ ∃ c ∈ l, isWS c = false := by
  rw [Ne, trimL_eq_nil_iff]
  constructor
  · intro h
    by_contra hc
    push_neg at hc
    exact h (fun c hcl => by simpa using hc c hcl)
  · rintro ⟨c, hcl, hcf⟩ hall
    rw [hall c hcl] at hcf
    cases hcf

/-- A non-empty stripped string contains a non-whitespace character of its
own. -/
theorem exists_not_ws_mem_trimL (x : Str) (h : trimL x ≠ []) :
    ∃ c ∈ trimL x, isWS c = false := by
  rw [trimL] at h ⊢
  have h2 : (x.dropWhile isWS).reverse.dropWhile isWS ≠ [] := by
    intro hnil
    rw [hnil] at h
    exact h rfl
  obtain ⟨c, hc, hcp⟩ := exists_not_of_dropWhile_ne_nil isWS _ h2
  exact ⟨c, List.mem_reverse.mpr hc, hcp⟩

/-- Every sentence produced by `split_into_sentences` is non-empty and
contains a non-whitespace character. -/
theorem splitIntoSentences_mem (t : Str) (s : Str)
    (hs : s ∈ splitIntoSentences t) :
    s ≠ [] ∧ ∃ c ∈ s, isWS c = false := by
  rw [splitIntoSentences] at hs
  obtain ⟨hmem, hcond⟩ := List.mem_filter.1 hs
  have hne : s ≠ [] := by simpa using hcond
  obtain ⟨raw, -, rfl⟩ := List.mem_map.1 hmem
  exact ⟨hne, exists_not_ws_mem_trimL raw hne⟩

/-- A character of a part is a character of the space-join. -/
theorem mem_joinSpace {c : Char} :
    ∀ {l : List Str} {s : Str}, c ∈ s → s ∈ l → c ∈ joinSpace l := by
  intro l
  induction l with
  | nil => intro s _ hs; simp at hs
  | cons a rest ih =>
    intro s hc hs
    cases rest with
    | nil =>
      rw [List.mem_singleton] at hs
      rw [joinSpace, ← hs]
      exact hc
    | cons b rs =>
      show c ∈ a ++ ' ' :: joinSpace (b :: rs)
      rcases List.mem_cons.1 hs with rfl | hs'
      · exact List.mem_append_left _ hc
      · exact List.mem_append_right _ (List.mem_cons_of_mem _ (ih hc hs'))

/-- The chunk-save guard always passes: joining non-blank sentences yields a
string that does not strip to empty. -/
theorem trim_joinSpace_ne_nil (u : List Str) (hu : u ≠ [])
    (hall : ∀ s ∈ u, ∃ c ∈ s, isWS c = false) :
    trimL (joinSpace u) ≠ [] := by
  cases u with
  | nil => exact absurd rfl hu
  | cons s rest =>
    obtain ⟨c, hc, hcp⟩ := hall s (List.mem_cons_self s rest)
    exact (trimL_ne_nil_iff _).mpr
      ⟨c, mem_joinSpace hc (List.mem_cons_self s rest), hcp⟩

/-- Length of a slice that fits in the list. -/
theorem slice_length (l : List α) (a p : ℕ) (hp : p ≤ l.length) (hap : a ≤ p) :
    (slice l (a, p)).length = p - a := by
  rw [slice, List.length_take, List.length_drop]
  omega

/-- Slice elements are list elements. -/
theorem mem_slice {l : List α} {iv : ℕ × ℕ} {x : α} (h : x ∈ slice l iv) :
    x ∈ l :=
  List.mem_of_mem_drop (List.mem_of_mem_take h)

/-- Appending the next element extends a slice by one. -/
theorem slice_extend (l : List α) (a p : ℕ) (s : α) (rest : List α)
    (hdrop : l.drop p = s :: rest) (hap : a ≤ p) :
    slice l (a, p) ++ [s] = slice l (a, p + 1) := by
  have h1 : p + 1 - a = (p - a) + 1 := by omega
  rw [slice, slice]
  show (l.drop a).take (p - a) ++ [s] = (l.drop a).take (p + 1 - a)
  rw [h1, List.take_add, List.drop_drop]
  have h2 : a + (p - a) = p := by omega
  rw [h2, hdrop]
  rfl

/-- The overlap seed `current_chunk[-2:]` of a slice is the slice of the last
`min 2 (p - a)` positions. -/
theorem ovl_slice (l : List Str) (a p : ℕ) (hap : a < p) (hp : p ≤ l.length) :
    ovl (slice l (a, p)) = slice l (p - min 2 (p - a), p) := by
  have hlen : (slice l (a, p)).length = p - a := slice_length l a p hp (by omega)
  by_cases h2 : 2 ≤ p - a
  · have hmin : min 2 (p - a) = 2 := by omega
    rw [ovl, if_pos (by omega), takeLast, hlen, hmin, slice, slice]
    show ((l.drop a).take (p - a)).drop (p - a - 2) =
      (l.drop (p - 2)).take (p - (p - 2))
    rw [List.drop_take, List.drop_drop]
    have e1 : p - a - (p - a - 2) = 2 := by omega
    have e2 : a + (p - a - 2) = p - 2 := by omega
    have e3 : p - (p - 2) = 2 := by omega
    rw [e1, e2, e3]
  · have h1 : p - a = 1 := by omega
    have ha : a = p - 1 := by omega
    have hmin : min 2 (p - a) = 1 := by omega
    rw [ovl, if_neg (by omega), hmin, ← ha]

/-- Every interval of a chain ends within the item range. -/
theorem chainFrom_le (n : ℕ) :
    ∀ (l : List (ℕ × ℕ)) (p : ℕ × ℕ), chainFrom n p l → p.2 ≤ n := by
  intro l
  induction l with
  | nil => intro p h; exact le_of_eq h.1
  | cons q rest ih =>
    intro p h
    exact h.2.2.1.trans (ih q h.2.2.2)

/-- De-overlapped concatenation along a chain reconstructs the item tail. -/
theorem dedup_eq_drop (items : List α) :
    ∀ (l : List (ℕ × ℕ)) (p : ℕ × ℕ) (prev : ℕ),
      chainFrom items.length p l → p.1 ≤ prev → prev ≤ p.2 →
      dedupConcat items prev (p :: l) = items.drop prev := by
  intro l
  induction l with
  | nil =>
    intro p prev hchain h1 h2
    obtain ⟨hend, -⟩ := hchain
    rw [dedupConcat, dedupConcat, List.append_nil, Nat.max_eq_right h1]
    have : p.2 - prev = (items.drop prev).length := by
      rw [List.length_drop]
      omega
    rw [this, List.take_length]
  | cons q rest ih =>
    intro p prev hchain h1 h2
    obtain ⟨-, hq1, hq2, hrest⟩ := hchain
    have hrec : dedupConcat items p.2 (q :: rest) = items.drop p.2 :=
      ih q p.2 hrest hq1 hq2
    show (items.drop (max p.1 prev)).take (p.2 - max p.1 prev) ++
      dedupConcat items p.2 (q :: rest) = items.drop prev
    rw [hrec, Nat.max_eq_right h1]
    have hdd : items.drop p.2 = (items.drop prev).drop (p.2 - prev) := by
      rw [List.drop_drop]
      congr 1
      omega
    rw [hdd, List.take_append_drop]

/-- De-overlapped concatenation of a covering chain is the full item list. -/
theorem dedup_of_covers (items : List α) (ivs : List (ℕ × ℕ))
    (h : chainCovers items.length ivs) :
    dedupConcat items 0 ivs = items := by
  cases ivs with
  | nil => exact absurd h not_false
  | cons p rest =>
    obtain ⟨h0, hchain⟩ := h
    have := dedup_eq_drop items rest p 0 hchain (le_of_eq h0) (Nat.zero_le _)
    rw [this, List.drop_zero]

/-- Invariant of the `chunk_by_sentences` loop: starting from a non-empty
current chunk that is the slice `[ca, p)` of the sentence list, the loop
appends chunks that are slices of the sentence list forming a chain of
intervals from `ca` to the end. -/
theorem cbsAux_cover (cs : ℕ) (ss : List Str)
    (hS : ∀ s ∈ ss, ∃ c ∈ s, isWS c = false) :
    ∀ (rest : List Str) (p ca : ℕ) (chunks : List (List Str)),
      ss.drop p = rest → p ≤ ss.length → ca < p →
      ∃ (e : ℕ) (ivs : List (ℕ × ℕ)),
        cbsAux cs chunks (slice ss (ca, p)) rest =
          chunks ++ ((ca, e) :: ivs).map (fun iv => slice ss iv) ∧
        p ≤ e ∧ chainFrom ss.length (ca, e) ivs := by
  intro rest
  induction rest with
  | nil =>
    intro p ca chunks hdrop hple hca
    have hpn : p = ss.length := by
      have := List.drop_eq_nil_iff.mp hdrop
      omega
    have hcur_ne : slice ss (ca, p) ≠ [] := by
      have hl := slice_length ss ca p (by omega) (le_of_lt hca)
      intro hnil
      rw [hnil] at hl
      simp at hl
      omega
    have hck : trimL (joinSpace (slice ss (ca, p))) ≠ [] :=
      trim_joinSpace_ne_nil _ hcur_ne (fun s hs => hS s (mem_slice hs))
    refine ⟨p, [], ?_, le_refl p, hpn, hca⟩
    simp only [cbsAux]
    rw [if_neg hck]
    rfl
  | cons s rest' ih =>
    intro p ca chunks hdrop hple hca
    have hplt : p < ss.length := by
      by_contra hc
      have : ss.drop p = [] := List.drop_eq_nil_iff.mpr (by omega)
      rw [this] at hdrop
      cases hdrop
    have hdrop' : ss.drop (p + 1) = rest' := by
      have h1 : ss.drop (p + 1) = (ss.drop p).drop 1 := by
        rw [List.drop_drop]
      rw [h1, hdrop]
      rfl
    by_cases hcond : sizeL (slice ss (ca, p)) + wordCount s > cs ∧
        slice ss (ca, p) ≠ []
    · -- the current chunk closes; the next one is seeded with the overlap
      have hcur_ne : slice ss (ca, p) ≠ [] := hcond.2
      have hck : trimL (joinSpace (slice ss (ca, p))) ≠ [] :=
        trim_joinSpace_ne_nil _ hcur_ne (fun x hx => hS x (mem_slice hx))
      have hovl : ovl (slice ss (ca, p)) =
          slice ss (p - min 2 (p - ca), p) :=
        ovl_slice ss ca p hca (le_of_lt hplt)
      have hnew : slice ss (p - min 2 (p - ca), p) ++ [s] =
          slice ss (p - min 2 (p - ca), p + 1) :=
        slice_extend ss _ p s rest' hdrop (by omega)
      obtain ⟨e', ivs', heq, hle', hchain'⟩ :=
        ih (p + 1) (p - min 2 (p - ca)) (chunks ++ [slice ss (ca, p)])
          hdrop' (by omega) (by omega)
      refine ⟨p, (p - min 2 (p - ca), e') :: ivs', ?_, le_refl p,
        hca, by omega, by omega, hchain'⟩
      simp only [cbsAux]
      rw [if_pos hcond, if_neg hck, hovl, hnew, heq]
      simp [List.append_assoc]
    · -- the sentence is appended to the current chunk
      have hext : slice ss (ca, p) ++ [s] = slice ss (ca, p + 1) :=
        slice_extend ss ca p s rest' hdrop (le_of_lt hca)
      obtain ⟨e', ivs', heq, hle', hchain'⟩ :=
        ih (p + 1) ca chunks hdrop' (by omega) (by omega)
      refine ⟨e', ivs', ?_, by omega, hchain'⟩
      simp only [cbsAux]
      rw [if_neg hcond, hext, heq]

/-- The modelled `chunk_by_sentences` on a non-empty list of non-blank sentences yields
chunks that are the space-joins of a covering chain of sentence slices. -/
theorem chunkBySentences_covers (cs ov : ℕ) (ss : List Str) (hne : ss ≠ [])
    (hS : ∀ s ∈ ss, ∃ c ∈ s, isWS c = false) :
    ∃ ivs : List (ℕ × ℕ), ivs ≠ [] ∧
      chunkBySentences ss cs ov =
        ivs.map (fun iv => joinSpace (slice ss iv)) ∧
      chainCovers ss.length ivs := by
  obtain ⟨s0, ss', rfl⟩ := List.exists_cons_of_ne_nil hne
  have hstep : cbsAux cs [] [] (s0 :: ss') = cbsAux cs [] [s0] ss' := by
    simp only [cbsAux]
    rw [if_neg (by simp)]
    rfl
  have hslice1 : ([s0] : List Str) = slice (s0 :: ss') (0, 1) := rfl
  have hdrop1 : (s0 :: ss').drop 1 = ss' := rfl
  obtain ⟨e, ivs, heq, hle, hchain⟩ :=
    cbsAux_cover cs (s0 :: ss') hS ss' 1 0 [] hdrop1 (by simp) (by omega)
  refine ⟨(0, e) :: ivs, by simp, ?_, rfl, hchain⟩
  rw [chunkBySentences, hstep, hslice1, heq]
  simp [List.map_map]

/-- Python `str.split()` is non-empty whenever some character is not whitespace. -/
theorem wordsGo_ne_nil :
    ∀ (t : Str) (inW : Bool) (acc : Str),
      inW = true ∨ (∃ c ∈ t, isWS c = false) → wordsGo inW acc t ≠ [] := by
  intro t
  induction t with
  | nil =>
    intro inW acc h
    rcases h with h | ⟨c, hc, -⟩
    · rw [h]
      simp [wordsGo]
    · simp at hc
  | cons c rest ih =>
    intro inW acc h
    by_cases hws : isWS c
    · cases inW
      · -- not inside a word: skip the whitespace
        have h2 : ∃ d ∈ rest, isWS d = false := by
          rcases h with h | ⟨d, hd, hdf⟩
          · cases h
          · rcases List.mem_cons.1 hd with rfl | hd'
            · rw [hws] at hdf
              cases hdf
            · exact ⟨d, hd', hdf⟩
        simp only [wordsGo, hws, if_true, Bool.false_eq_true, if_false]
        exact ih false [] (Or.inr h2)
      · -- inside a word: the accumulated word is emitted
        simp only [wordsGo, hws, if_true]
        simp
    · simp only [wordsGo, hws, if_false, Bool.false_eq_true]
      exact ih true (c :: acc) (Or.inl rfl)

/-- Every word `str.split()` produces is non-empty and free of whitespace. -/
theorem wordsGo_mem :
    ∀ (t : Str) (inW : Bool) (acc : Str) (w : Str),
      (inW = true → acc ≠ []) → (∀ c ∈ acc, isWS c = false) →
      w ∈ wordsGo inW acc t → w ≠ [] ∧ ∀ c ∈ w, isWS c = false := by
  intro t
  induction t with
  | nil =>
    intro inW acc w hacc hns hw
    cases inW
    · simp [wordsGo] at hw
    · simp [wordsGo] at hw
      subst hw
      refine ⟨by simpa using hacc rfl, ?_⟩
      intro c hc
      exact hns c (List.mem_reverse.mp hc)
  | cons c rest ih =>
    intro inW acc w hacc hns hw
    by_cases hws : isWS c
    · cases inW
      · simp only [wordsGo, hws, if_true, Bool.false_eq_true, if_false] at hw
        exact ih false [] w (by simp) (by simp) hw
      · simp only [wordsGo, hws, if_true] at hw
        rcases List.mem_cons.1 hw with rfl | hw'
        · refine ⟨by simpa using hacc rfl, ?_⟩
          intro d hd
          exact hns d (List.mem_reverse.mp hd)
        · exact ih false [] w (by simp) (by simp) hw'
    · simp only [wordsGo, hws, if_false, Bool.false_eq_true] at hw
      refine ih true (c :: acc) w (fun _ => by simp) ?_ hw
      intro d hd
      rcases List.mem_cons.1 hd with rfl | hd'
      · simpa using hws
      · exact hns d hd'

/-- The modelled `splitWords` is non-empty on a string with a non-whitespace character. -/
theorem splitWords_ne_nil (t : Str) (h : ∃ c ∈ t, isWS c = false) :
    splitWords t ≠ [] :=
  wordsGo_ne_nil t false [] (Or.inr h)

/-- Words are non-empty and whitespace-free. -/
theorem mem_splitWords (t w : Str) (hw : w ∈ splitWords t) :
    w ≠ [] ∧ ∀ c ∈ w, isWS c = false :=
  wordsGo_mem t false [] w (by simp) (by simp) hw

/-- Every start emitted by the fuelled `range` is below the stop. -/
theorem startsFuel_mem (n step : ℕ) :
    ∀ (fuel a x : ℕ), x ∈ startsFuel n step fuel a → x < n := by
  intro fuel
  induction fuel with
  | zero =>
    intro a x hx
    simp [startsFuel] at hx
  | succ fuel ih =>
    intro a x hx
    rw [startsFuel] at hx
    by_cases hb : a < n
    · rw [if_pos hb] at hx
      rcases List.mem_cons.1 hx with rfl | hx'
      · exact hb
      · exact ih _ x hx'
    · rw [if_neg hb] at hx
      cases hx

/-- The word windows of `chunk_by_words` form a chain: consecutive windows
overlap and the last ends at the word count. -/
theorem startsFuel_chain (n step cs : ℕ) (h1 : 1 ≤ step) (h2 : step ≤ cs) :
    ∀ (fuel a : ℕ), a < n → n ≤ a + step + fuel →
      chainFrom n (a, min (a + cs) n)
        ((startsFuel n step fuel (a + step)).map
          (fun x => (x, min (x + cs) n))) := by
  intro fuel
  induction fuel with
  | zero =>
    intro a ha hfa
    show chainFrom n (a, min (a + cs) n) []
    exact ⟨by omega, by omega⟩
  | succ fuel ih =>
    intro a ha hfa
    by_cases hb : a + step < n
    · rw [startsFuel, if_pos hb, List.map_cons]
      exact ⟨by omega, by omega, by omega, ih (a + step) hb (by omega)⟩
    · rw [startsFuel, if_neg hb]
      show chainFrom n (a, min (a + cs) n) []
      exact ⟨by omega, by omega⟩

/-- All-whitespace input in skip mode collapses to nothing. -/
theorem collapseGo_true_all_ws (t : Str) (h : ∀ c ∈ t, isWS c = true) :
    collapseGo true t = [] := by
  induction t with
  | nil => rfl
  | cons c rest ih =>
    have hc := h c (List.mem_cons_self c rest)
    simp only [collapseGo, hc, if_true]
    exact ih (fun d hd => h d (List.mem_cons_of_mem c hd))

/-- All-whitespace input collapses to nothing or a single space. -/
theorem collapseGo_false_all_ws (t : Str) (h : ∀ c ∈ t, isWS c = true) :
    collapseGo false t = [] ∨ collapseGo false t = [' '] := by
  cases t with
  | nil => exact Or.inl rfl
  | cons c rest =>
    have hc := h c (List.mem_cons_self c rest)
    right
    simp only [collapseGo, hc, if_true]
    rw [collapseGo_true_all_ws rest (fun d hd => h d (List.mem_cons_of_mem c hd))]
    simp

/-- Blank text cleans to the empty string. -/
theorem cleanText_blank (t : Str) (h : trimL t = []) : cleanText t = [] := by
  have hall : ∀ c ∈ t, isWS c = true := (trimL_eq_nil_iff t).mp h
  rcases collapseGo_false_all_ws t hall with hc | hc
  · rw [cleanText, collapseWS, hc]
    rfl
  · rw [cleanText, collapseWS, hc]
    decide

/-- A non-empty cleaned text contains a non-whitespace character. -/
theorem exists_not_ws_cleanText (t : Str) (h : cleanText t ≠ []) :
    ∃ c ∈ cleanText t, isWS c = false :=
  exists_not_ws_mem_trimL (replaceBad (collapseWS t)) h

/-- The modelled `chunk_by_words` (for a valid configuration, on text with at least one
word) returns the space-joins of a covering chain of word slices. -/
theorem chunkByWords_covers (t : Str) (cs ov : ℕ) (hov : ov < cs)
    (hw : splitWords t ≠ []) :
    ∃ ivs : List (ℕ × ℕ), ivs ≠ [] ∧
      chunkByWords t cs ov =
        Except.ok (ivs.map (fun iv => joinSpace (slice (splitWords t) iv))) ∧
      chainCovers (splitWords t).length ivs := by
  have hn : 0 < (splitWords t).length := List.length_pos.mpr hw
  obtain ⟨m, hm⟩ : ∃ m, (splitWords t).length = m + 1 := ⟨(splitWords t).length - 1, by omega⟩
  have hcs_ne : ¬ cs = ov := by omega
  have hcs_lt : ¬ cs < ov := by omega
  have hstarts : rangeStep (splitWords t).length (cs - ov) =
      0 :: startsFuel (splitWords t).length (cs - ov) m (0 + (cs - ov)) := by
    rw [rangeStep, hm, startsFuel, if_pos (by omega)]
  have hwindow : ∀ a ∈ rangeStep (splitWords t).length (cs - ov),
      joinSpace (((splitWords t).drop a).take cs) =
        joinSpace (slice (splitWords t) (a, min (a + cs) (splitWords t).length)) := by
    intro a ha
    have halt : a < (splitWords t).length := startsFuel_mem _ _ _ _ a ha
    congr 1
    rw [slice]
    show ((splitWords t).drop a).take cs =
      ((splitWords t).drop a).take (min (a + cs) (splitWords t).length - a)
    by_cases hc : a + cs ≤ (splitWords t).length
    · have he : min (a + cs) (splitWords t).length - a = cs := by omega
      rw [he]
    · have he : min (a + cs) (splitWords t).length - a =
          (splitWords t).length - a := by omega
      rw [he, List.take_of_length_le (by rw [List.length_drop]; omega),
        List.take_of_length_le (by rw [List.length_drop])]
  have hkeepall : ∀ ch ∈ (rangeStep (splitWords t).length (cs - ov)).map
      (fun i => joinSpace (((splitWords t).drop i).take cs)),
      trimL ch ≠ [] := by
    intro ch hch
    obtain ⟨a, ha, rfl⟩ := List.mem_map.1 hch
    have halt : a < (splitWords t).length := startsFuel_mem _ _ _ _ a ha
    have hwin_ne : ((splitWords t).drop a).take cs ≠ [] := by
      refine List.length_pos.mp ?_
      rw [List.length_take, List.length_drop]
      omega
    refine trim_joinSpace_ne_nil _ hwin_ne ?_
    intro s hs
    have hsw : s ∈ splitWords t := List.mem_of_mem_drop (List.mem_of_mem_take hs)
    obtain ⟨hne', hnc⟩ := mem_splitWords t s hsw
    cases s with
    | nil => exact absurd rfl hne'
    | cons c tl => exact ⟨c, List.mem_cons_self c tl, hnc c (List.mem_cons_self c tl)⟩
  refine ⟨(rangeStep (splitWords t).length (cs - ov)).map
      (fun a => (a, min (a + cs) (splitWords t).length)), ?_, ?_, ?_⟩
  · rw [hstarts]
    simp
  · simp only [chunkByWords]
    rw [if_neg hcs_ne, if_neg hcs_lt]
    congr 1
    rw [List.filter_eq_self.mpr (fun ch hch => by simpa using hkeepall ch hch)]
    rw [List.map_map]
    exact List.map_congr_left (fun a ha => by simpa using hwindow a ha)
  · rw [hstarts, List.map_cons]
    refine ⟨rfl, ?_⟩
    exact startsFuel_chain (splitWords t).length (cs - ov) cs (by omega) (by omega)
      m 0 hn (by omega)

/-- C3 counterexample: the input "@@@" is a non-empty text (and 500/50 is a
valid configuration), yet `chunk_text` returns no chunk at all: cleaning
maps every character to whitespace and the word fallback finds no words.
Moreover, even when chunks exist, their concatenation need not equal the
normalized text: for "a. @@ b. c" the cleaned text keeps an internal
four-space run while the single produced chunk re-joins the sentences with
single spaces. -/
theorem chunkText_reconstruction_failures :
    str "@@@" ≠ [] ∧ chunkText (str "@@@") 500 50 = Except.ok [] ∧
    chunkText (str "a. @@ b. c") 500 50 = Except.ok [str "a. b. c"] ∧
    cleanText (str "a. @@ b. c") = str "a.    b. c" ∧
    str "a. b. c" ≠ str "a.    b. c" := by
  refine ⟨by decide, by decide, by decide, by decide, by decide⟩

/-- C3 (amended): for every text whose *cleaned* form is non-empty (and
valid configuration `overlap < chunk_size`), `chunk_text` succeeds with at
least one chunk, every chunk is the space-join of a contiguous slice of the
item sequence (sentences on the sentence path, words on the word path), the
slices form a covering chain — so no sentence (resp. word) is omitted —
and the concatenation of the chunks minus the duplicated overlap content
reconstructs exactly the full item sequence of the normalized text. -/
theorem chunkText_covers (t : Str) (cs ov : ℕ) (hov : ov < cs)
    (hne : cleanText t ≠ []) :
    ∃ (chunks : List Str) (ivs : List (ℕ × ℕ)),
      chunkText t cs ov = Except.ok chunks ∧ chunks ≠ [] ∧
      chunks = ivs.map (fun iv => joinSpace (slice (chunkItems t) iv)) ∧
      chainCovers (chunkItems t).length ivs ∧
      dedupConcat (chunkItems t) 0 ivs = chunkItems t := by
  have htne : trimL t ≠ [] := fun h => hne (cleanText_blank t h)
  by_cases hpath : (splitIntoSentences (cleanText t)).length ≤ 1
  · have hitems : chunkItems t = splitWords (cleanText t) := by
      rw [chunkItems, if_pos hpath]
    have hwne : splitWords (cleanText t) ≠ [] :=
      splitWords_ne_nil _ (exists_not_ws_cleanText t hne)
    obtain ⟨ivs, hivne, heq, hcov⟩ := chunkByWords_covers (cleanText t) cs ov hov hwne
    refine ⟨ivs.map (fun iv => joinSpace (slice (chunkItems t) iv)), ivs,
      ?_, ?_, rfl, ?_, ?_⟩
    · simp only [chunkText]
      rw [if_neg htne, if_pos hpath, hitems]
      exact heq
    · intro h
      exact hivne (List.map_eq_nil_iff.mp h)
    · rw [hitems]
      exact hcov
    · rw [hitems]
      exact dedup_of_covers _ ivs hcov
  · have hitems : chunkItems t = splitIntoSentences (cleanText t) := by
      rw [chunkItems, if_neg hpath]
    have hne' : splitIntoSentences (cleanText t) ≠ [] := by
      intro h
      rw [h] at hpath
      simp at hpath
    obtain ⟨ivs, hivne, heq, hcov⟩ := chunkBySentences_covers cs ov _ hne'
      (fun s hs => (splitIntoSentences_mem _ s hs).2)
    refine ⟨ivs.map (fun iv => joinSpace (slice (chunkItems t) iv)), ivs,
      ?_, ?_, rfl, ?_, ?_⟩
    · simp only [chunkText]
      rw [if_neg htne, if_neg hpath, hitems]
      rw [heq]
    · intro h
      exact hivne (List.map_eq_nil_iff.mp h)
    · rw [hitems]
      exact hcov
    · rw [hitems]
      exact dedup_of_covers _ ivs hcov

/-- Witness for C3 on the spec's scenario text with `chunk_size = 6`,
`overlap = 2`. -/
theorem chunkText_covers_witness :
    (2 : ℕ) < 6 ∧
    cleanText (str "Cats are mammals. Dogs are mammals too.") ≠ [] ∧
    ∃ (chunks : List Str) (ivs : List (ℕ × ℕ)),
      chunkText (str "Cats are mammals. Dogs are mammals too.") 6 2 =
        Except.ok chunks ∧ chunks ≠ [] ∧
      chunks = ivs.map (fun iv =>
        joinSpace (slice (chunkItems (str "Cats are mammals. Dogs are mammals too.")) iv)) ∧
      chainCovers (chunkItems (str "Cats are mammals. Dogs are mammals too.")).length ivs ∧
      dedupConcat (chunkItems (str "Cats are mammals. Dogs are mammals too.")) 0 ivs =
        chunkItems (str "Cats are mammals. Dogs are mammals too.") :=
  ⟨by decide, by decide,
    chunkText_covers (str "Cats are mammals. Dogs are mammals too.") 6 2
      (by decide) (by decide)⟩

/-- Witness for C4 on a one-element index with `k = 2`. -/
theorem retrieveTopK_spec_witness :
    ([str "x"] : List Str).length = ([defaultEmb] : List Emb).length ∧
    ∃ idx : List ℕ, idx.Nodup ∧ (∀ i ∈ idx, i < ([str "x"] : List Str).length) ∧
      idx.length = min 2 ([str "x"] : List Str).length ∧
      retrieveTopK [defaultEmb] tieEmb [str "x"] 2 =
        idx.map (fun i => ([str "x"] : List Str).getD i []) ∧
      ∀ c ∈ retrieveTopK [defaultEmb] tieEmb [str "x"] 2, c ∈ ([str "x"] : List Str) :=
  ⟨rfl, retrieveTopK_spec [defaultEmb] tieEmb [str "x"] 2 rfl⟩

end HackRx
